import Mathlib

/-!
Verification development for the disney-customers-feedback repository.

The Python sources are shallowly embedded as follows:

* Python strings are `List Char` (named `Str` here), since the relevant
  operations (lowercasing, whitespace splitting, substring tests,
  truncation) are all per-character and this keeps every definition
  kernel-executable.
* pandas DataFrames of review rows are lists of `(index, ReviewRecord)`
  pairs; the stable positional index of a row is its position in the
  review store at load time, which is what `df.index` exposes.
* Python floats are embedded as exact rationals, except for the cosine
  similarity computations of the cache service, which involve square
  roots and are embedded in the reals.
* Python dicts are association lists in insertion order; assignment to
  an existing key overwrites in place, assignment to a fresh key appends.
* `pandas.DataFrame.nlargest(n, col)` (keep = first) and the builtin
  `sorted(keys, key = score, reverse = True)` are both stable descending
  sorts, embedded with `List.insertionSort` on a reflexive total
  descending relation, which is extensionally the unique stable
  descending sort.
-/

namespace Disney

/-- Python strings, embedded as character lists. -/
abbrev Str := List Char

/-- Python `str.lower()` (the inputs of interest are ASCII). -/
def lowerStr (s : Str) : Str := s.map Char.toLower

/-- Helper for `splitWs`: accumulates the current word (reversed). -/
def splitWsAux : List Char → List Char → List Str
  | [], acc => if acc.isEmpty then [] else [acc.reverse]
  | c :: cs, acc =>
    if c.isWhitespace then
      if acc.isEmpty then splitWsAux cs [] else acc.reverse :: splitWsAux cs []
    else splitWsAux cs (c :: acc)

/-- Python `str.split()` with no argument: split on whitespace runs,
dropping empty tokens. -/
def splitWs (s : Str) : List Str := splitWsAux s []

/-- Python `needle in hay` on strings: substring containment. -/
def containsSub (needle hay : Str) : Bool := decide (needle <:+: hay)

/-- `ReviewService._normalize_text`: lowercase, then remove the literal
characters underscore, hyphen and space (review_service.py line 46). -/
def normalizeText (s : Str) : Str :=
  (lowerStr s).filter (fun c => !(c = '_' || c = '-' || c = ' '))

/-- One review row: the columns Branch, Rating, Year_Month,
Reviewer_Location, Review_Text of the loaded CSV, all strings. -/
structure ReviewRecord where
  branch : Str
  rating : Str
  yearMonth : Str
  reviewerLocation : Str
  reviewText : Str
deriving DecidableEq, Repr

/-- One formatted result dict of `search_reviews` (review_service.py
lines 185 to 191): the record fields with the text truncated to 500
characters. -/
structure ReviewOut where
  branch : Str
  rating : Str
  yearMonth : Str
  reviewerLocation : Str
  reviewText : Str
deriving DecidableEq, Repr

/-- Formats one row as a result dict, truncating the text to 500
characters. -/
def formatRecord (r : ReviewRecord) : ReviewOut :=
  { branch := r.branch
    rating := r.rating
    yearMonth := r.yearMonth
    reviewerLocation := r.reviewerLocation
    reviewText := r.reviewText.take 500 }

/-- `ReviewService._apply_filters` (review_service.py lines 328 to 359):
normalized substring match on Branch and Reviewer_Location.  A `None` or
empty filter value is falsy in Python and passes through.  The rows keep
their stable positional index. -/
def applyFilters (records : List ReviewRecord) (branch location : Option Str) :
    List (ℕ × ReviewRecord) :=
  let indexed := records.enum
  let afterBranch :=
    match branch with
    | none => indexed
    | some b =>
      if b.isEmpty then indexed
      else indexed.filter (fun p => containsSub (normalizeText b) (normalizeText p.2.branch))
  match location with
  | none => afterBranch
  | some l =>
    if l.isEmpty then afterBranch
    else afterBranch.filter (fun p =>
      containsSub (normalizeText l) (normalizeText p.2.reviewerLocation))

/-- Relevance of one row in `ReviewService.search_reviews`
(review_service.py lines 175 to 177): the number of query words, taken
with multiplicity from the whitespace split of the lowercased query,
that occur as substrings of the lowercased review text. -/
def searchRelevance (query : Str) (text : Str) : ℕ :=
  ((splitWs (lowerStr query)).filter (fun w => containsSub w (lowerStr text))).length

/-- `ReviewService.search_reviews` (review_service.py lines 147 to 194):
filter, score each candidate by `searchRelevance`, take the
`maxResults` largest by a stable descending sort (`DataFrame.nlargest`
with keep = first), and format. -/
def searchReviews (records : List ReviewRecord) (query : Str)
    (branch location : Option Str) (maxResults : ℕ) : List ReviewOut :=
  let df := applyFilters records branch location
  if df.isEmpty then []
  else
    let scored := df.map (fun p => (p, searchRelevance query p.2.reviewText))
    let top := (scored.insertionSort (fun a b => b.2 ≤ a.2)).take maxResults
    top.map (fun p => formatRecord p.1.2)

/-- The per-row score of `ReviewService._calculate_keyword_scores`
(review_service.py lines 361 to 384): distinct-word overlap fraction
with a multiplicative boost of 3/2 for a verbatim substring match of the
full lowercased query. -/
def keywordScore (query : Str) (text : Str) : ℚ :=
  let qWords := (splitWs (lowerStr query)).dedup
  let textLower := lowerStr text
  let tWords := splitWs textLower
  let common := qWords.filter (fun w => w ∈ tWords)
  let overlap : ℚ := if 0 < qWords.length then (common.length : ℚ) / (qWords.length : ℚ) else 0
  let boost : ℚ := if containsSub (lowerStr query) textLower then 3 / 2 else 1
  overlap * boost

/-- `ReviewService._calculate_keyword_scores`: one keyword score per
candidate row, keyed by the stable index. -/
def calcKeywordScores (df : List (ℕ × ReviewRecord)) (query : Str) : List (ℕ × ℚ) :=
  df.map (fun p => (p.1, keywordScore query p.2.reviewText))

/-- Python dict lookup `m.get(k)` on an insertion-ordered association
list (keys are unique in a dict, so the first match is the match). -/
def alGet (m : List (ℕ × ℚ)) (k : ℕ) : Option ℚ :=
  (m.find? (fun p => p.1 == k)).map (fun p => p.2)

/-- Python dict assignment `m[k] = v`: overwrite in place if the key is
present, append otherwise. -/
def alUpdate (m : List (ℕ × ℚ)) (k : ℕ) (v : ℚ) : List (ℕ × ℚ) :=
  if m.any (fun p => p.1 == k) then m.map (fun p => if p.1 == k then (k, v) else p)
  else m ++ [(k, v)]

/-- Builds a Python dict from a sequence of key value assignments
(later assignments to the same key overwrite). -/
def dictOfList (l : List (ℕ × ℚ)) : List (ℕ × ℚ) :=
  l.foldl (fun m p => alUpdate m p.1 p.2) []

/-- Abstract external vector index (ChromaDB `collection.query`): given
an optional id restriction and a neighbor count, returns an ordered list
of (id, distance) pairs.  Document ids are the stable review indices;
the str/int round trip of the source is dropped as it is the identity on
canonical numerals. -/
abbrev VIndex := Option (List ℕ) → ℕ → List (ℕ × ℚ)

/-- `VectorStore.search_similar` (vector_store.py lines 119 to 169):
queries the index and converts each returned distance to
`similarity = 1 - distance`.  An empty id list is falsy in Python
(`if ids:`), so it places no restriction. -/
def searchSimilar (index : VIndex) (nResults : ℕ) (ids : Option (List ℕ)) :
    List (ℕ × ℚ) :=
  let idsParam : Option (List ℕ) :=
    match ids with
    | some l => if l.isEmpty then none else some l
    | none => none
  (index idsParam nResults).map (fun p => (p.1, 1 - p.2))

/-- Semantic retrieval step of `ReviewService.search_reviews_hybrid`
(review_service.py lines 241 to 276): id-filtered search when the
candidate count reaches `max_results * 5`, otherwise a full search over
`max_results * 3` neighbors post-filtered to the candidate set. -/
def semanticResults (index : VIndex) (candidates : List ℕ) (maxResults : ℕ) :
    List (ℕ × ℚ) :=
  if maxResults * 5 ≤ candidates.length then
    searchSimilar index (min candidates.length (maxResults * 2)) (some candidates)
  else
    (searchSimilar index (maxResults * 3) none).filter (fun p => candidates.contains p.1)

/-- The `semantic_scores` dict of `search_reviews_hybrid` (lines 279 to
281): one entry per returned result, later duplicates overwriting. -/
def semanticScores (index : VIndex) (candidates : List ℕ) (maxResults : ℕ) :
    List (ℕ × ℚ) :=
  dictOfList (semanticResults index candidates maxResults)

/-- Score fusion of `search_reviews_hybrid` (lines 288 to 305).  The
first loop inserts one entry per keyword key in insertion order; the
semantic term is added only when the semantic score is strictly
positive.  The second loop appends entries for semantic keys that are
absent from the keyword map. -/
def fuseScores (kw sem : List (ℕ × ℚ)) (kwWeight semWeight : ℚ) : List (ℕ × ℚ) :=
  let fromKw := kw.map (fun p =>
    let semScore := (alGet sem p.1).getD 0
    (p.1, if 0 < semScore then kwWeight * p.2 + semWeight * semScore
      else kwWeight * p.2))
  let semOnly := (sem.filter (fun p => (alGet kw p.1).isNone)).map
    (fun p => (p.1, semWeight * p.2))
  fromKw ++ semOnly

/-- One formatted hybrid result row (review_service.py lines 314 to
323): the record fields plus the three scores. -/
structure HybridOut where
  branch : Str
  rating : Str
  yearMonth : Str
  reviewerLocation : Str
  reviewText : Str
  keywordScore : ℚ
  semanticScore : ℚ
  combinedScore : ℚ
deriving DecidableEq, Repr

/-- Steps 5 and 6 of `search_reviews_hybrid` (lines 307 to 323): sort
the fused scores descending (Python `sorted` with reverse = True is
stable), truncate to `max_results`, and format each surviving row from
the candidate frame.  `df.loc[idx]` is modelled by `find?` on the
candidate list; a key that is absent from the frame would raise in the
source and yields no row here. -/
def rankAndFormat (df : List (ℕ × ReviewRecord)) (kw sem final : List (ℕ × ℚ))
    (maxResults : ℕ) : List HybridOut :=
  let top := (final.insertionSort (fun p q => q.2 ≤ p.2)).take maxResults
  top.filterMap (fun p =>
    (df.find? (fun d => d.1 == p.1)).map (fun d =>
      { branch := d.2.branch
        rating := d.2.rating
        yearMonth := d.2.yearMonth
        reviewerLocation := d.2.reviewerLocation
        reviewText := d.2.reviewText.take 500
        keywordScore := (alGet kw p.1).getD 0
        semanticScore := (alGet sem p.1).getD 0
        combinedScore := p.2 }))

/-- Result of `search_reviews_hybrid`: the keyword-only fallback rows
carry no score fields, the hybrid rows do. -/
inductive HybridResult where
  | keywordOnly (rows : List ReviewOut)
  | hybrid (rows : List HybridOut)
deriving DecidableEq

/-- `ReviewService.search_reviews_hybrid` (review_service.py lines 196
to 326).  `semAvailable` models the availability check of line 219: the
embedding service and vector store are configured and the embeddings
are indexed.  When it fails the method returns the `search_reviews`
keyword results unchanged. -/
def searchReviewsHybrid (semAvailable : Bool) (index : VIndex)
    (records : List ReviewRecord) (query : Str) (branch location : Option Str)
    (maxResults : ℕ) (kwWeight semWeight : ℚ) : HybridResult :=
  if !semAvailable then
    .keywordOnly (searchReviews records query branch location maxResults)
  else
    let df := applyFilters records branch location
    if df.isEmpty then .hybrid []
    else
      let kw := calcKeywordScores df query
      let sem := semanticScores index (df.map (fun p => p.1)) maxResults
      let final := fuseScores kw sem kwWeight semWeight
      .hybrid (rankAndFormat df kw sem final maxResults)

/-- Ranking described by the amended claim C1: each candidate scored by
the `search_reviews` relevance count (number of query words occurring as
substrings of the lowercased text, with multiplicity), sorted descending
with ties in original order, truncated, and formatted. -/
def keywordOnlyRankingSpec (records : List ReviewRecord) (query : Str)
    (branch location : Option Str) (maxResults : ℕ) : List ReviewOut :=
  let cands := applyFilters records branch location
  if cands.isEmpty then []
  else
    let ranked := (cands.map (fun p =>
      (p, (splitWs (lowerStr query)).countP
        (fun w => containsSub w (lowerStr p.2.reviewText))))).insertionSort
      (fun a b => b.2 ≤ a.2)
    (ranked.take maxResults).map (fun p => formatRecord p.1.2)

/-- Circuit breaker states (circuit_breaker.py lines 12 to 16).  The
Python CLOSED, OPEN, HALF_OPEN are `closed`, `opened`, `halfOpen`. -/
inductive CBState where
  | closed
  | opened
  | halfOpen
deriving DecidableEq, Repr

/-- Circuit breaker configuration (circuit_breaker.py lines 26 to 44).
Times are exact rationals; wall clock instants are passed in explicitly
where the source calls `time.time()`. -/
structure CBConfig where
  failureThreshold : ℚ
  timeout : ℚ
  windowSize : ℕ

/-- Mutable circuit breaker state (circuit_breaker.py lines 46 to 50). -/
structure CBreaker where
  state : CBState
  failures : ℕ
  successes : ℕ
  lastFailureTime : Option ℚ
  lastStateChange : ℚ
deriving DecidableEq, Repr

/-- Breaker as constructed (circuit_breaker.py lines 46 to 50), at wall
clock instant `t0`. -/
def initBreaker (t0 : ℚ) : CBreaker :=
  { state := .closed, failures := 0, successes := 0, lastFailureTime := none
    lastStateChange := t0 }

/-- `CircuitBreaker._reset_window` (circuit_breaker.py lines 138 to
145): keep the success proportion under integer truncation, summing the
counts to the window size.  The float expression
`int(window_size * (successes / total))` is embedded as natural floor
division, its exact value. -/
def resetWindow (cfg : CBConfig) (s f : ℕ) : ℕ × ℕ :=
  let total := s + f
  if 0 < total then
    let s' := cfg.windowSize * s / total
    (s', cfg.windowSize - s')
  else (s, f)

/-- `CircuitBreaker._on_success` (circuit_breaker.py lines 88 to 101):
increment successes, rescale on window overflow, and close the circuit
from HALF_OPEN, zeroing only the failure count. -/
def onSuccess (cfg : CBConfig) (b : CBreaker) (now : ℚ) : CBreaker :=
  let s := b.successes + 1
  let sf := if cfg.windowSize < s + b.failures then resetWindow cfg s b.failures
    else (s, b.failures)
  if b.state = .halfOpen then
    { state := .closed, failures := 0, successes := sf.1
      lastFailureTime := b.lastFailureTime, lastStateChange := now }
  else { b with successes := sf.1, failures := sf.2 }

/-- `CircuitBreaker._on_failure` (circuit_breaker.py lines 103 to 124):
increment failures, record the failure time, rescale on window
overflow, and open the circuit when the failure rate reaches the
threshold (a breaker already open stays open without a transition). -/
def onFailure (cfg : CBConfig) (b : CBreaker) (now : ℚ) : CBreaker :=
  let f := b.failures + 1
  let sf := if cfg.windowSize < b.successes + f then resetWindow cfg b.successes f
    else (b.successes, f)
  let total := sf.1 + sf.2
  if 0 < total ∧ cfg.failureThreshold ≤ (sf.2 : ℚ) / (total : ℚ) then
    { state := .opened, failures := sf.2, successes := sf.1
      lastFailureTime := some now
      lastStateChange := if b.state = .opened then b.lastStateChange else now }
  else
    { b with failures := sf.2, successes := sf.1, lastFailureTime := some now }

/-- `CircuitBreaker._should_attempt_reset` (circuit_breaker.py lines
126 to 136). -/
def shouldAttemptReset (cfg : CBConfig) (b : CBreaker) (now : ℚ) : Bool :=
  match b.lastFailureTime with
  | none => false
  | some t => decide (cfg.timeout ≤ now - t)

/-- Admission phase of `CircuitBreaker.call` (circuit_breaker.py lines
66 to 76): an OPEN breaker transitions to HALF_OPEN when the timeout
has elapsed, otherwise the call is rejected with the distinct circuit
open error before the wrapped function is invoked.  Returns whether the
call is let through, and the breaker as of the admission decision. -/
def admission (cfg : CBConfig) (b : CBreaker) (now : ℚ) : Bool × CBreaker :=
  if b.state = .opened then
    if shouldAttemptReset cfg b now then
      (true, { b with state := .halfOpen, lastStateChange := now })
    else (false, b)
  else (true, b)

/-- Observable outcome of one `CircuitBreaker.call`: `rejected` is the
distinct circuit open error raised without invoking the wrapped
function; `succeeded` and `failed` mean the wrapped function ran. -/
inductive CallOutcome where
  | rejected
  | succeeded
  | failed
deriving DecidableEq, Repr

/-- `CircuitBreaker.call` (circuit_breaker.py lines 52 to 86) at wall
clock instant `now`, where `callSucceeds` tells whether the wrapped
function would return normally or raise. -/
def callStep (cfg : CBConfig) (b : CBreaker) (now : ℚ) (callSucceeds : Bool) :
    CallOutcome × CBreaker :=
  let a := admission cfg b now
  if a.1 then
    if callSucceeds then (.succeeded, onSuccess cfg a.2 now)
    else (.failed, onFailure cfg a.2 now)
  else (.rejected, a.2)

/-- `CircuitBreaker.reset` (circuit_breaker.py lines 147 to 154). -/
def resetBreaker (now : ℚ) : CBreaker :=
  { state := .closed, failures := 0, successes := 0, lastFailureTime := none
    lastStateChange := now }

/-- Breaker states observable at rest: the initial state, and closure
under completed calls and manual resets. -/
inductive Reachable (cfg : CBConfig) : CBreaker → Prop
  | init (t0 : ℚ) : Reachable cfg (initBreaker t0)
  | call {b : CBreaker} (now : ℚ) (s : Bool) (h : Reachable cfg b) :
      Reachable cfg (callStep cfg b now s).2
  | manualReset {b : CBreaker} (now : ℚ) (h : Reachable cfg b) :
      Reachable cfg (resetBreaker now)

/-- Breaker states observable in the HALF_OPEN state: entered mid-call
by the admission phase from a breaker reachable at rest. -/
def ReachableHalfOpen (cfg : CBConfig) (b : CBreaker) : Prop :=
  b.state = .halfOpen ∧
    ∃ b0 now, Reachable cfg b0 ∧ admission cfg b0 now = (true, b)

/-- Dot product of two embedding vectors (`np.dot`).  The claims in
scope only compare vectors of equal dimensionality. -/
def dotR (a b : List ℝ) : ℝ := (List.zipWith (fun x y => x * y) a b).sum

/-- Euclidean norm (`np.linalg.norm`). -/
noncomputable def normR (a : List ℝ) : ℝ := Real.sqrt (dotR a a)

/-- `QueryCacheService._compute_similarity` (cache_service.py lines 148
to 167): cosine similarity, 0 when either norm is 0.  Float arithmetic
is embedded exactly in the reals. -/
noncomputable def computeSimilarity (a b : List ℝ) : ℝ :=
  open Classical in
  if normR a = 0 ∨ normR b = 0 then 0 else dotR a b / (normR a * normR b)

/-- One live cache entry: the stored entry json together with its
stored embedding.  Entries whose data has expired are skipped by the
scan (`continue`) and are not modelled; the claims in scope quantify
over live entries only.  The stored timestamp plays no role in the
claims. -/
structure CacheEntry where
  question : Str
  answer : Str
  embedding : List ℝ
  numReviewsUsed : ℕ

/-- Cache hit payload returned by `QueryCacheService.get` (cache_service.py
lines 226 to 233): the cached answer, its review count, the matched
similarity, and the originally cached question text. -/
structure CacheHit where
  answer : Str
  numReviewsUsed : ℕ
  cacheSimilarity : ℝ
  originalQuestion : Str

/-- Scan loop of `QueryCacheService.get` (cache_service.py lines 194 to
213): track the best similarity, starting from 0.0, updating only on a
strict improvement. -/
noncomputable def scanBest (q : List ℝ) (entries : List (Str × CacheEntry)) :
    ℝ × Option CacheEntry :=
  open Classical in
  entries.foldl (fun best p =>
    let s := computeSimilarity q p.2.embedding
    if best.1 < s then (s, some p.2) else best) (0, none)

/-- `QueryCacheService.get` (cache_service.py lines 169 to 240): embed
the question, scan all live entries for the most similar stored
embedding, and return a hit when a best entry exists and its similarity
reaches the threshold (inclusive comparison). -/
noncomputable def cacheGet (embed : Str → List ℝ) (threshold : ℝ)
    (entries : List (Str × CacheEntry)) (question : Str) : Option CacheHit :=
  open Classical in
  if entries.isEmpty then none
  else
    let best := scanBest (embed question) entries
    match best.2 with
    | some e =>
      if threshold ≤ best.1 then
        some { answer := e.answer, numReviewsUsed := e.numReviewsUsed
               cacheSimilarity := best.1, originalQuestion := e.question }
      else none
    | none => none

/-- `QueryCacheService.set` (cache_service.py lines 242 to 296): embed
the question, derive the content hash identifier, and persist the entry
and its embedding under that identifier (`setex` overwrites an existing
identifier in place; `sadd` is idempotent on the live key index). -/
def cacheSet (hash : Str → Str) (embed : Str → List ℝ)
    (entries : List (Str × CacheEntry)) (question answer : Str)
    (numReviews : ℕ) : List (Str × CacheEntry) :=
  let k := hash question
  let e : CacheEntry :=
    { question := question, answer := answer, embedding := embed question
      numReviewsUsed := numReviews }
  if entries.any (fun p => p.1 == k) then
    entries.map (fun p => if p.1 == k then (k, e) else p)
  else entries ++ [(k, e)]

/-- The window counts stay within the configured window size. -/
def WindowBounded (cfg : CBConfig) (b : CBreaker) : Prop :=
  b.successes + b.failures ≤ cfg.windowSize

/-- The recorded failure rate reaches the failure threshold (the
condition under which the circuit opened). -/
def TrippedRate (cfg : CBConfig) (b : CBreaker) : Prop :=
  0 < b.successes + b.failures ∧
    cfg.failureThreshold * ((b.successes + b.failures : ℕ) : ℚ) ≤ (b.failures : ℚ)

/-- Invariant of every breaker state observable at rest. -/
def RestInv (cfg : CBConfig) (b : CBreaker) : Prop :=
  WindowBounded cfg b ∧ (b.state = .opened → TrippedRate cfg b) ∧ b.state ≠ .halfOpen

end Disney


namespace Disney

/-- Evaluation helper: reduces `keywordScore` on concrete inputs to
decidable counts plus rational arithmetic. -/
theorem keywordScore_eval (q t : Str) (c n : ℕ) (b : Bool)
    (hn : (splitWs (lowerStr q)).dedup.length = n)
    (hc : ((splitWs (lowerStr q)).dedup.filter
      (fun w => w ∈ splitWs (lowerStr t))).length = c)
    (hb : containsSub (lowerStr q) (lowerStr t) = b) :
    keywordScore q t = (if 0 < n then (c : ℚ) / n else 0) * (if b then 3 / 2 else 1) := by
  subst hn hc hb
  rfl


/-- Helper: the word set and verbatim flag fully determine the keyword
score, in the |Q ∩ W| / |Q| formulation of the spec. -/
theorem keywordScore_eq_inter (q t : Str) :
    keywordScore q t =
      (if (splitWs (lowerStr q)).dedup.length = 0 then 0
       else (((splitWs (lowerStr q)).dedup ∩ (splitWs (lowerStr t))).length : ℚ) /
         ((splitWs (lowerStr q)).dedup.length : ℚ)) *
      (if containsSub (lowerStr q) (lowerStr t) then 3 / 2 else 1) := by
  unfold keywordScore
  rw [List.inter_def]
  simp only [List.elem_eq_mem]
  rcases Nat.eq_zero_or_pos (splitWs (lowerStr q)).dedup.length with h | h
  · simp [h]
  · simp [h, Nat.pos_iff_ne_zero.mp h]

/-- C8: the keyword score equals the distinct-word overlap fraction
|Q ∩ W| / |Q| (0 when Q is empty) multiplied by 3/2 exactly when the
full lowercased query occurs verbatim in the lowercased text; the score
lies in [0, 3/2]; and a text containing every query word together with
the verbatim match scores strictly above a text with the same full word
overlap but no verbatim match. -/
theorem keyword_score_spec :
    (∀ q t : Str, keywordScore q t =
      (if (splitWs (lowerStr q)).dedup.length = 0 then 0
       else (((splitWs (lowerStr q)).dedup ∩ (splitWs (lowerStr t))).length : ℚ) /
         ((splitWs (lowerStr q)).dedup.length : ℚ)) *
      (if containsSub (lowerStr q) (lowerStr t) then 3 / 2 else 1)) ∧
    (∀ q t : Str, 0 ≤ keywordScore q t ∧ keywordScore q t ≤ 3 / 2) ∧
    (∀ q t1 t2 : Str, (splitWs (lowerStr q)).dedup ≠ [] →
      (∀ w ∈ (splitWs (lowerStr q)).dedup, w ∈ splitWs (lowerStr t1)) →
      (∀ w ∈ (splitWs (lowerStr q)).dedup, w ∈ splitWs (lowerStr t2)) →
      containsSub (lowerStr q) (lowerStr t1) = true →
      containsSub (lowerStr q) (lowerStr t2) = false →
      keywordScore q t2 < keywordScore q t1) := by
  have hbase : ∀ q t : Str,
      0 ≤ (if 0 < (splitWs (lowerStr q)).dedup.length then
        ((((splitWs (lowerStr q)).dedup.filter
          (fun w => w ∈ splitWs (lowerStr t))).length : ℚ) /
          ((splitWs (lowerStr q)).dedup.length : ℚ)) else 0) ∧
      (if 0 < (splitWs (lowerStr q)).dedup.length then
        ((((splitWs (lowerStr q)).dedup.filter
          (fun w => w ∈ splitWs (lowerStr t))).length : ℚ) /
          ((splitWs (lowerStr q)).dedup.length : ℚ)) else 0) ≤ 1 := by
    intro q t
    by_cases h : 0 < (splitWs (lowerStr q)).dedup.length
    · constructor
      · simp only [h, if_true]
        positivity
      · simp only [h, if_true]
        rw [div_le_one (by exact_mod_cast h)]
        exact_mod_cast List.length_filter_le _ _
    · simp [h]
  refine ⟨keywordScore_eq_inter, ?_, ?_⟩
  · intro q t
    have hb := hbase q t
    simp only [keywordScore]
    by_cases hc : containsSub (lowerStr q) (lowerStr (t : Str)) = true
    · simp only [hc, if_true]
      constructor
      · nlinarith [hb.1, hb.2]
      · nlinarith [hb.1, hb.2]
    · rw [Bool.not_eq_true] at hc
      simp only [hc, Bool.false_eq_true, if_false, mul_one]
      exact ⟨hb.1, le_trans hb.2 (by norm_num)⟩
  · intro q t1 t2 hne hall1 hall2 hv1 hv2
    have hlen : 0 < (splitWs (lowerStr q)).dedup.length :=
      List.length_pos.mpr hne
    have hfull : ∀ t : Str, (∀ w ∈ (splitWs (lowerStr q)).dedup, w ∈ splitWs (lowerStr t)) →
        ((splitWs (lowerStr q)).dedup.filter
          (fun w => w ∈ splitWs (lowerStr t))) = (splitWs (lowerStr q)).dedup := by
      intro t hall
      exact List.filter_eq_self.mpr (fun a ha => by simpa using hall a ha)
    have hq : ((splitWs (lowerStr q)).dedup.length : ℚ) ≠ 0 := by
      exact_mod_cast Nat.pos_iff_ne_zero.mp hlen
    simp only [keywordScore]
    rw [hfull t1 hall1, hfull t2 hall2, hv1, hv2]
    simp only [hlen, if_true, Bool.false_eq_true, if_false, div_self hq, mul_one]
    norm_num

/-- C8 witness: with query "fun day", the text "a fun day" (all query
words plus the verbatim phrase) scores strictly above "fun and day"
(all query words, no verbatim phrase). -/
theorem keyword_score_spec_witness :
    ((splitWs (lowerStr "fun day".toList)).dedup ≠ [] ∧
      (∀ w ∈ (splitWs (lowerStr "fun day".toList)).dedup,
        w ∈ splitWs (lowerStr "a fun day".toList)) ∧
      (∀ w ∈ (splitWs (lowerStr "fun day".toList)).dedup,
        w ∈ splitWs (lowerStr "fun and day".toList)) ∧
      containsSub (lowerStr "fun day".toList) (lowerStr "a fun day".toList) = true ∧
      containsSub (lowerStr "fun day".toList) (lowerStr "fun and day".toList) = false) ∧
    keywordScore "fun day".toList "fun and day".toList <
      keywordScore "fun day".toList "a fun day".toList := by
  refine ⟨⟨by decide, by decide, by decide, by decide, by decide⟩, ?_⟩
  exact keyword_score_spec.2.2 "fun day".toList "a fun day".toList "fun and day".toList
    (by decide) (by decide) (by decide) (by decide) (by decide)

/-- C1 counterexample: with the semantic subsystem unavailable, query
"red cars" and the two records "redred carsx" and "red thing", the
fallback returns the "redred carsx" record first, although its keyword
score per the 4.2 scorer is strictly smaller than that of "red thing"
(0 versus 1/2): the fallback ranking is not the keyword-score
descending ranking claimed.  The fallback relevance is instead the
substring count of `search_reviews` (2 versus 1). -/
theorem hybrid_fallback_not_keyword_score_ranked :
    searchReviewsHybrid false (fun _ _ => [])
      [{ branch := "p".toList, rating := "5".toList, yearMonth := "m1".toList,
         reviewerLocation := "x".toList, reviewText := "redred carsx".toList },
       { branch := "p".toList, rating := "4".toList, yearMonth := "m2".toList,
         reviewerLocation := "y".toList, reviewText := "red thing".toList }]
      "red cars".toList none none 2 (2/5) (3/5) =
    .keywordOnly
      [{ branch := "p".toList, rating := "5".toList, yearMonth := "m1".toList,
         reviewerLocation := "x".toList, reviewText := "redred carsx".toList },
       { branch := "p".toList, rating := "4".toList, yearMonth := "m2".toList,
         reviewerLocation := "y".toList, reviewText := "red thing".toList }] ∧
    keywordScore "red cars".toList "redred carsx".toList <
      keywordScore "red cars".toList "red thing".toList := by
  constructor
  · decide
  · rw [keywordScore_eval _ _ 0 2 true (by decide) (by decide) (by decide),
      keywordScore_eval _ _ 1 2 false (by decide) (by decide) (by decide)]
    norm_num

/-- C1 (amended): when the semantic subsystem is unavailable,
`search_reviews_hybrid` returns the `search_reviews` keyword ranking, in
which each candidate relevance is the number of whitespace-split
lowercased query words occurring (with multiplicity) as substrings of
the lowercased text, sorted descending with ties in original order and
truncated to `max_results`, each row formatted with the text truncated
to 500 characters. -/
theorem hybrid_fallback_is_search_reviews_ranking (index : VIndex)
    (records : List ReviewRecord) (query : Str) (branch location : Option Str)
    (maxResults : ℕ) (kwWeight semWeight : ℚ) :
    searchReviewsHybrid false index records query branch location maxResults
      kwWeight semWeight =
    .keywordOnly (keywordOnlyRankingSpec records query branch location maxResults) := by
  simp only [searchReviewsHybrid, Bool.not_false, if_true, searchReviews,
    keywordOnlyRankingSpec, searchRelevance, List.countP_eq_length_filter]

/-- C6: the semantic retrieval step selects its strategy by the
threshold `max_results * 5`: with at least that many candidates it
queries the index restricted to the candidate ids for
`min(candidates, max_results * 2)` neighbors; otherwise it queries the
full index for `max_results * 3` neighbors and discards results outside
the candidate set; each returned distance becomes the similarity
`1 - distance`. -/
theorem semantic_strategy_selection (index : VIndex) (candidates : List ℕ)
    (maxResults : ℕ) (hne : candidates ≠ []) :
    (maxResults * 5 ≤ candidates.length →
      semanticResults index candidates maxResults =
        (index (some candidates) (min candidates.length (maxResults * 2))).map
          (fun p => (p.1, 1 - p.2))) ∧
    (candidates.length < maxResults * 5 →
      semanticResults index candidates maxResults =
        ((index none (maxResults * 3)).map (fun p => (p.1, 1 - p.2))).filter
          (fun p => candidates.contains p.1)) := by
  constructor
  · intro h
    have hempty : candidates.isEmpty = false := by
      cases candidates with
      | nil => exact absurd rfl hne
      | cons a l => rfl
    unfold semanticResults
    rw [if_pos h]
    simp [searchSimilar, hempty]
  · intro h
    have hlt : ¬ maxResults * 5 ≤ candidates.length := by omega
    unfold semanticResults
    rw [if_neg hlt]
    simp [searchSimilar]

/-- C6 witness: five candidates with `max_results = 1` take the
id-filtered branch; a concrete index response with distance 1/4 yields
similarity 3/4. -/
theorem semantic_strategy_selection_witness :
    ([3, 7, 9, 11, 13] : List ℕ) ≠ [] ∧
    semanticResults (fun _ _ => [(3, (1 : ℚ)/4)]) [3, 7, 9, 11, 13] 1 =
      [(3, (3 : ℚ)/4)] := by
  refine ⟨by decide, ?_⟩
  have h := (semantic_strategy_selection (fun _ _ => [(3, (1 : ℚ)/4)])
    [3, 7, 9, 11, 13] 1 (by decide)).1 (by decide)
  rw [h]
  norm_num

/-- C5: an OPEN breaker rejects a call with the distinct circuit open
outcome, leaving the breaker untouched and never invoking the wrapped
function, while the elapsed time since the last failure is below the
timeout; once the elapsed time reaches the timeout the admission phase
transitions the breaker to HALF_OPEN and the call is let through. -/
theorem open_breaker_rejects_until_timeout (cfg : CBConfig) (b : CBreaker)
    (now t : ℚ) (s : Bool) (hopen : b.state = .opened)
    (hlf : b.lastFailureTime = some t) :
    (now - t < cfg.timeout → callStep cfg b now s = (.rejected, b)) ∧
    (cfg.timeout ≤ now - t →
      admission cfg b now = (true, { b with state := .halfOpen, lastStateChange := now }) ∧
      (callStep cfg b now s).1 ≠ .rejected) := by
  constructor
  · intro hlt
    have hs : shouldAttemptReset cfg b now = false := by
      simp [shouldAttemptReset, hlf, not_le.mpr hlt]
    simp [callStep, admission, hopen, hs]
  · intro hge
    have hs : shouldAttemptReset cfg b now = true := by
      simp [shouldAttemptReset, hlf, hge]
    refine ⟨by simp [admission, hopen, hs], ?_⟩
    cases s <;> simp [callStep, admission, hopen, hs]

/-- C5 witness: with `timeout = 60` and the opening failure at time 0,
a call at t = 0 is rejected with the breaker unchanged, and a call at
t = 61 is let through via HALF_OPEN. -/
theorem open_breaker_rejects_until_timeout_witness :
    (CBreaker.state ⟨.opened, 1, 0, some 0, 0⟩ = .opened ∧
      CBreaker.lastFailureTime ⟨.opened, 1, 0, some 0, 0⟩ = some 0 ∧
      (0 : ℚ) - 0 < 60 ∧ (60 : ℚ) ≤ 61 - 0) ∧
    callStep ⟨1/2, 60, 10⟩ ⟨.opened, 1, 0, some 0, 0⟩ 0 false =
      (.rejected, ⟨.opened, 1, 0, some 0, 0⟩) ∧
    admission ⟨1/2, 60, 10⟩ ⟨.opened, 1, 0, some 0, 0⟩ 61 =
      (true, ⟨.halfOpen, 1, 0, some 0, 61⟩) ∧
    (callStep ⟨1/2, 60, 10⟩ ⟨.opened, 1, 0, some 0, 0⟩ 61 false).1 ≠ .rejected := by
  have h0 := open_breaker_rejects_until_timeout ⟨1/2, 60, 10⟩
    ⟨.opened, 1, 0, some 0, 0⟩ 0 0 false rfl rfl
  have h61 := open_breaker_rejects_until_timeout ⟨1/2, 60, 10⟩
    ⟨.opened, 1, 0, some 0, 0⟩ 61 0 false rfl rfl
  refine ⟨⟨rfl, rfl, by norm_num, by norm_num⟩, h0.1 (by norm_num), ?_, ?_⟩
  · exact (h61.2 (by norm_num)).1
  · exact (h61.2 (by norm_num)).2

/-- Helper: a proper rescale sums the counts to exactly the window
size, with a success share no larger than the window size. -/
theorem resetWindow_sum (cfg : CBConfig) (s f : ℕ) (h : 0 < s + f) :
    (resetWindow cfg s f).1 ≤ cfg.windowSize ∧
    (resetWindow cfg s f).1 + (resetWindow cfg s f).2 = cfg.windowSize := by
  simp only [resetWindow]
  rw [if_pos h]
  have hle : cfg.windowSize * s / (s + f) ≤ cfg.windowSize := by
    calc cfg.windowSize * s / (s + f)
        ≤ cfg.windowSize * (s + f) / (s + f) :=
          Nat.div_le_div_right (Nat.mul_le_mul_left _ (Nat.le_add_right s f))
      _ = cfg.windowSize := Nat.mul_div_cancel _ h
  exact ⟨hle, by omega⟩

/-- Helper: the rescaled success count is the floor of the exact
proportional share `window_size * successes / total`. -/
theorem resetWindow_floor (cfg : CBConfig) (s f : ℕ) (h : 0 < s + f) :
    ((resetWindow cfg s f).1 : ℚ) ≤
      ((cfg.windowSize * s : ℕ) : ℚ) / ((s + f : ℕ) : ℚ) ∧
    ((cfg.windowSize * s : ℕ) : ℚ) / ((s + f : ℕ) : ℚ) <
      (resetWindow cfg s f).1 + 1 := by
  simp only [resetWindow]
  rw [if_pos h]
  have hpos : (0 : ℚ) < ((s + f : ℕ) : ℚ) := by exact_mod_cast h
  constructor
  · rw [le_div_iff₀ hpos]
    exact_mod_cast Nat.div_mul_le_self (cfg.windowSize * s) (s + f)
  · rw [div_lt_iff₀ hpos]
    have := (Nat.div_lt_iff_lt_mul h).mp
      (Nat.lt_succ_self (cfg.windowSize * s / (s + f)))
    exact_mod_cast this

/-- Helper: the state after a recorded success. -/
theorem onSuccess_state (cfg : CBConfig) (b : CBreaker) (now : ℚ) :
    (onSuccess cfg b now).state = if b.state = .halfOpen then .closed else b.state := by
  simp only [onSuccess]
  by_cases h : b.state = .halfOpen <;> simp [h]

/-- Helper: a recorded success keeps the window bounded. -/
theorem onSuccess_window (cfg : CBConfig) (b : CBreaker) (now : ℚ)
    (hw : WindowBounded cfg b) : WindowBounded cfg (onSuccess cfg b now) := by
  unfold WindowBounded at hw
  show (onSuccess cfg b now).successes + (onSuccess cfg b now).failures ≤ cfg.windowSize
  simp only [onSuccess]
  by_cases hr : cfg.windowSize < b.successes + 1 + b.failures
  · have hsum := resetWindow_sum cfg (b.successes + 1) b.failures (by omega)
    rw [if_pos hr]
    split <;> simp <;> omega
  · rw [if_neg hr]
    split <;> simp <;> omega

/-- Helper: a recorded failure keeps the window bounded. -/
theorem onFailure_window (cfg : CBConfig) (b : CBreaker) (now : ℚ)
    (hw : WindowBounded cfg b) : WindowBounded cfg (onFailure cfg b now) := by
  unfold WindowBounded at hw
  show (onFailure cfg b now).successes + (onFailure cfg b now).failures ≤ cfg.windowSize
  simp only [onFailure]
  by_cases hr : cfg.windowSize < b.successes + (b.failures + 1)
  · have hsum := resetWindow_sum cfg b.successes (b.failures + 1) (by omega)
    rw [if_pos hr]
    split <;> simp <;> omega
  · rw [if_neg hr]
    split <;> simp <;> omega

/-- Helper: the failure-rate comparison with the division cleared. -/
theorem rate_cond_iff (th : ℚ) (s f : ℕ) (h : 0 < s + f) :
    (th ≤ (f : ℚ) / ((s + f : ℕ) : ℚ)) ↔ th * ((s + f : ℕ) : ℚ) ≤ (f : ℚ) := by
  rw [le_div_iff₀ (by exact_mod_cast h)]

/-- Helper: the result of a recorded failure, expressed through the
rescaled pair. -/
theorem onFailure_eval (cfg : CBConfig) (b : CBreaker) (now : ℚ) (s' f' : ℕ)
    (hpair : (if cfg.windowSize < b.successes + (b.failures + 1) then
        resetWindow cfg b.successes (b.failures + 1)
        else (b.successes, b.failures + 1)) = (s', f')) :
    onFailure cfg b now =
      if 0 < s' + f' ∧ cfg.failureThreshold ≤ (f' : ℚ) / ((s' + f' : ℕ) : ℚ) then
        { state := .opened, failures := f', successes := s'
          lastFailureTime := some now
          lastStateChange := if b.state = .opened then b.lastStateChange else now }
      else
        { b with failures := f', successes := s', lastFailureTime := some now } := by
  simp only [onFailure, hpair]

/-- Helper: a recorded failure either opens the circuit with the rate
at the threshold, or leaves the state unchanged. -/
theorem onFailure_closed_cases (cfg : CBConfig) (b : CBreaker) (now : ℚ) :
    ((onFailure cfg b now).state = .opened ∧ TrippedRate cfg (onFailure cfg b now)) ∨
    (onFailure cfg b now).state = b.state := by
  rcases hpair : (if cfg.windowSize < b.successes + (b.failures + 1) then
      resetWindow cfg b.successes (b.failures + 1)
      else (b.successes, b.failures + 1)) with ⟨s', f'⟩
  have he := onFailure_eval cfg b now s' f' hpair
  by_cases hcond : 0 < s' + f' ∧
      cfg.failureThreshold ≤ (f' : ℚ) / ((s' + f' : ℕ) : ℚ)
  · left
    rw [he, if_pos hcond]
    exact ⟨rfl, hcond.1, (rate_cond_iff _ _ _ hcond.1).mp hcond.2⟩
  · right
    rw [he, if_neg hcond]

/-- Helper: a recorded failure on a breaker whose rate already reaches
the threshold re-opens the circuit, keeping the rate at the threshold. -/
theorem onFailure_from_tripped (cfg : CBConfig) (b : CBreaker) (now : ℚ)
    (hw : WindowBounded cfg b) (ht : TrippedRate cfg b) :
    (onFailure cfg b now).state = .opened ∧ TrippedRate cfg (onFailure cfg b now) := by
  rcases hpair : (if cfg.windowSize < b.successes + (b.failures + 1) then
      resetWindow cfg b.successes (b.failures + 1)
      else (b.successes, b.failures + 1)) with ⟨s', f'⟩
  have he := onFailure_eval cfg b now s' f' hpair
  have htot : 0 < b.successes + b.failures := ht.1
  have htq : (0 : ℚ) < ((b.successes + b.failures : ℕ) : ℚ) := by exact_mod_cast htot
  have hfle : (b.failures : ℚ) ≤ ((b.successes + b.failures : ℕ) : ℚ) := by
    exact_mod_cast Nat.le_add_left _ _
  have hth1 : cfg.failureThreshold ≤ 1 := by
    have h2 := ht.2
    nlinarith [h2, hfle, htq]
  have hkey : cfg.failureThreshold * ((b.successes : ℚ) + (b.failures : ℚ) + 1) ≤
      (b.failures : ℚ) + 1 := by
    have h2 := ht.2
    push_cast at h2
    nlinarith [h2, hth1]
  have hcond : 0 < s' + f' ∧
      cfg.failureThreshold ≤ (f' : ℚ) / ((s' + f' : ℕ) : ℚ) := by
    by_cases hr : cfg.windowSize < b.successes + (b.failures + 1)
    · rw [if_pos hr] at hpair
      have hwpos : 0 < cfg.windowSize := lt_of_lt_of_le htot hw
      have hsum := resetWindow_sum cfg b.successes (b.failures + 1) (by omega)
      have hfl := (resetWindow_floor cfg b.successes (b.failures + 1) (by omega)).1
      rw [hpair] at hsum hfl
      have htotpos : 0 < s' + f' := by omega
      refine ⟨htotpos, (rate_cond_iff _ _ _ htotpos).mpr ?_⟩
      have hsumq : (s' : ℚ) + (f' : ℚ) = (cfg.windowSize : ℚ) := by
        exact_mod_cast hsum.2
      have ht1pos : (0 : ℚ) < (b.successes : ℚ) + (b.failures : ℚ) + 1 := by
        positivity
      have hflq : (s' : ℚ) * ((b.successes : ℚ) + (b.failures : ℚ) + 1) ≤
          (cfg.windowSize : ℚ) * (b.successes : ℚ) := by
        rw [le_div_iff₀ (by push_cast; positivity)] at hfl
        push_cast at hfl
        nlinarith [hfl]
      have hwq : (0 : ℚ) ≤ (cfg.windowSize : ℚ) := by positivity
      have hmain : cfg.failureThreshold * ((s' : ℚ) + (f' : ℚ)) *
          ((b.successes : ℚ) + (b.failures : ℚ) + 1) ≤
          (f' : ℚ) * ((b.successes : ℚ) + (b.failures : ℚ) + 1) := by
        nlinarith [mul_le_mul_of_nonneg_left hkey hwq, hflq, hsumq]
      have := le_of_mul_le_mul_right hmain ht1pos
      push_cast
      nlinarith [this]
    · rw [if_neg hr] at hpair
      obtain ⟨rfl, rfl⟩ : b.successes = s' ∧ b.failures + 1 = f' := by
        constructor <;> [exact congrArg Prod.fst hpair; exact congrArg Prod.snd hpair]
      refine ⟨by omega, (rate_cond_iff _ _ _ (by omega)).mpr ?_⟩
      push_cast
      nlinarith [hkey]
  rw [he, if_pos hcond]
  exact ⟨rfl, hcond.1, (rate_cond_iff _ _ _ hcond.1).mp hcond.2⟩

/-- Helper: one completed call preserves the rest invariant. -/
theorem restInv_step (cfg : CBConfig) (b : CBreaker) (now : ℚ) (s : Bool)
    (h : RestInv cfg b) : RestInv cfg (callStep cfg b now s).2 := by
  obtain ⟨hw, hop, hnh⟩ := h
  rcases hst : b.state with hc | ho | hh
  · have hadm : admission cfg b now = (true, b) := by simp [admission, hst]
    simp only [callStep, hadm]
    cases s
    · simp only [Bool.false_eq_true, if_false, if_true]
      rcases onFailure_closed_cases cfg b now with ⟨hopn, htr⟩ | hsame
      · exact ⟨onFailure_window cfg b now hw, fun _ => htr, by simp [hopn]⟩
      · refine ⟨onFailure_window cfg b now hw, ?_, ?_⟩
        · intro hx
          rw [hsame, hst] at hx
          exact absurd hx (by simp)
        · rw [hsame, hst]
          simp
    · simp only [if_true]
      have hstate := onSuccess_state cfg b now
      rw [hst] at hstate
      simp only [reduceCtorEq, if_false] at hstate
      refine ⟨onSuccess_window cfg b now hw, ?_, ?_⟩
      · intro hx
        rw [hstate] at hx
        exact absurd hx (by simp)
      · rw [hstate]
        simp
  · by_cases hsr : shouldAttemptReset cfg b now = true
    · have hadm : admission cfg b now =
          (true, { b with state := .halfOpen, lastStateChange := now }) := by
        simp [admission, hst, hsr]
      simp only [callStep, hadm]
      have htrip : TrippedRate cfg { b with state := CBState.halfOpen, lastStateChange := now } :=
        hop hst
      have hwb : WindowBounded cfg { b with state := CBState.halfOpen, lastStateChange := now } :=
        hw
      cases s
      · simp only [Bool.false_eq_true, if_false, if_true]
        obtain ⟨hopn, htr⟩ := onFailure_from_tripped cfg _ now hwb htrip
        exact ⟨onFailure_window cfg _ now hwb, fun _ => htr, by simp [hopn]⟩
      · simp only [if_true]
        have hstate := onSuccess_state cfg
          { b with state := CBState.halfOpen, lastStateChange := now } now
        simp only [if_pos rfl] at hstate
        refine ⟨onSuccess_window cfg _ now hwb, ?_, ?_⟩
        · intro hx
          rw [hstate] at hx
          exact absurd hx (by simp)
        · rw [hstate]
          simp
    · have hadm : admission cfg b now = (false, b) := by
        simp [admission, hst, hsr]
      simp only [callStep, hadm]
      exact ⟨hw, hop, hnh⟩
  · exact absurd hst hnh

/-- Helper: every breaker state reachable at rest satisfies the rest
invariant. -/
theorem reachable_restInv (cfg : CBConfig) (b : CBreaker)
    (h : Reachable cfg b) : RestInv cfg b := by
  induction h with
  | init t0 =>
    exact ⟨Nat.zero_le _, fun hx => absurd hx (by simp [initBreaker]), by simp [initBreaker]⟩
  | call now s h ih => exact restInv_step _ _ _ _ ih
  | manualReset now h ih =>
    exact ⟨Nat.zero_le _, fun hx => absurd hx (by simp [resetBreaker]), by simp [resetBreaker]⟩

/-- Helper: every breaker observable in HALF_OPEN keeps the window
bounded and its failure rate at the threshold. -/
theorem reachableHalfOpen_inv (cfg : CBConfig) (b : CBreaker)
    (h : ReachableHalfOpen cfg b) : WindowBounded cfg b ∧ TrippedRate cfg b := by
  obtain ⟨hst, b0, now, hr, hadm⟩ := h
  have h0 := reachable_restInv cfg b0 hr
  by_cases hop : b0.state = .opened
  · by_cases hsr : shouldAttemptReset cfg b0 now = true
    · have heq : admission cfg b0 now =
          (true, { b0 with state := .halfOpen, lastStateChange := now }) := by
        simp [admission, hop, hsr]
      rw [heq] at hadm
      have hb : { b0 with state := CBState.halfOpen, lastStateChange := now } = b :=
        congrArg Prod.snd hadm
      rw [← hb]
      exact ⟨h0.1, h0.2.1 hop⟩
    · have heq : admission cfg b0 now = (false, b0) := by
        simp [admission, hop, hsr]
      rw [heq] at hadm
      exact absurd (congrArg Prod.fst hadm) (by simp)
  · have heq : admission cfg b0 now = (true, b0) := by
      simp [admission, hop]
    rw [heq] at hadm
    have hb : b0 = b := congrArg Prod.snd hadm
    rw [← hb] at hst
    exact absurd hst h0.2.2

/-- C2: a breaker observed in HALF_OPEN lets exactly the next call
attempt through: the admission phase admits it unchanged; on success
the breaker closes with the failure count reset to 0 and the success
count retained as recorded by the success bookkeeping (increment plus
window rescale, not reset); on failure the same failure-rate evaluation
as in CLOSED re-opens the circuit; in both cases the breaker leaves
HALF_OPEN, so no second call is let through while it remains
HALF_OPEN. -/
theorem half_open_lets_one_call_through (cfg : CBConfig) (b : CBreaker)
    (h : ReachableHalfOpen cfg b) :
    (∀ now, admission cfg b now = (true, b)) ∧
    (∀ now, (onSuccess cfg b now).state = .closed ∧
      (onSuccess cfg b now).failures = 0 ∧
      (onSuccess cfg b now).successes =
        (if cfg.windowSize < b.successes + 1 + b.failures then
          (resetWindow cfg (b.successes + 1) b.failures).1 else b.successes + 1)) ∧
    (∀ now, (onFailure cfg b now).state = .opened) ∧
    (∀ now s, (callStep cfg b now s).1 ≠ .rejected ∧
      (callStep cfg b now s).2.state ≠ .halfOpen) := by
  have hst := h.1
  have hinv := reachableHalfOpen_inv cfg b h
  have hadm : ∀ now : ℚ, admission cfg b now = (true, b) := by
    intro now
    simp [admission, hst]
  have hsucc : ∀ now : ℚ, (onSuccess cfg b now).state = .closed ∧
      (onSuccess cfg b now).failures = 0 ∧
      (onSuccess cfg b now).successes =
        (if cfg.windowSize < b.successes + 1 + b.failures then
          (resetWindow cfg (b.successes + 1) b.failures).1 else b.successes + 1) := by
    intro now
    by_cases hr : cfg.windowSize < b.successes + 1 + b.failures <;>
      refine ⟨?_, ?_, ?_⟩ <;> simp [onSuccess, hst, hr]
  have hfail : ∀ now : ℚ, (onFailure cfg b now).state = .opened := fun now =>
    (onFailure_from_tripped cfg b now hinv.1 hinv.2).1
  refine ⟨hadm, hsucc, hfail, ?_⟩
  intro now s
  simp only [callStep, hadm now]
  cases s
  · simp only [Bool.false_eq_true, if_false, if_true]
    exact ⟨by simp, by simp [hfail now]⟩
  · simp only [if_true]
    exact ⟨by simp, by simp [(hsucc now).1]⟩

/-- C2 witness: with threshold 1/2, timeout 60 and window 10, one
failure at t = 0 opens the breaker; admission at t = 61 reaches
HALF_OPEN, where the theorem applies. -/
theorem half_open_lets_one_call_through_witness :
    ReachableHalfOpen ⟨1/2, 60, 10⟩ ⟨.halfOpen, 1, 0, some 0, 61⟩ ∧
    (onSuccess ⟨1/2, 60, 10⟩ ⟨.halfOpen, 1, 0, some 0, 61⟩ 61).state = .closed ∧
    (onSuccess ⟨1/2, 60, 10⟩ ⟨.halfOpen, 1, 0, some 0, 61⟩ 61).failures = 0 ∧
    (onFailure ⟨1/2, 60, 10⟩ ⟨.halfOpen, 1, 0, some 0, 61⟩ 61).state = .opened ∧
    (callStep ⟨1/2, 60, 10⟩ ⟨.halfOpen, 1, 0, some 0, 61⟩ 61 true).2.state ≠ .halfOpen := by
  have hb0 : (callStep ⟨1/2, 60, 10⟩ (initBreaker 0) 0 false).2 =
      ⟨.opened, 1, 0, some 0, 0⟩ := by
    simp [callStep, admission, initBreaker, shouldAttemptReset, onFailure, resetWindow]
    norm_num
  have hreach : Reachable ⟨1/2, 60, 10⟩ (⟨.opened, 1, 0, some 0, 0⟩ : CBreaker) := by
    rw [← hb0]
    exact Reachable.call 0 false (Reachable.init 0)
  have hho : ReachableHalfOpen ⟨1/2, 60, 10⟩ ⟨.halfOpen, 1, 0, some 0, 61⟩ := by
    refine ⟨rfl, ⟨.opened, 1, 0, some 0, 0⟩, 61, hreach, ?_⟩
    simp [admission, shouldAttemptReset]
    norm_num
  have hmain := half_open_lets_one_call_through ⟨1/2, 60, 10⟩
    ⟨.halfOpen, 1, 0, some 0, 61⟩ hho
  exact ⟨hho, (hmain.2.1 61).1, (hmain.2.1 61).2.1, hmain.2.2.1 61,
    (hmain.2.2.2 61 true).2⟩

/-- C3: for every reachable breaker state the recorded counts never
exceed the window size, and whenever an incremented count sum breaches
the window size the rescale produces counts summing to exactly the
window size whose success share is the integer truncation of the exact
proportional share. -/
theorem window_rescale_invariant (cfg : CBConfig) :
    (∀ b, Reachable cfg b → b.successes + b.failures ≤ cfg.windowSize) ∧
    (∀ s f, cfg.windowSize < s + f →
      (resetWindow cfg s f).1 + (resetWindow cfg s f).2 = cfg.windowSize ∧
      ((resetWindow cfg s f).1 : ℚ) ≤
        ((cfg.windowSize * s : ℕ) : ℚ) / ((s + f : ℕ) : ℚ) ∧
      ((cfg.windowSize * s : ℕ) : ℚ) / ((s + f : ℕ) : ℚ) <
        (resetWindow cfg s f).1 + 1) := by
  constructor
  · intro b hb
    exact (reachable_restInv cfg b hb).1
  · intro s f hbr
    have hpos : 0 < s + f := by omega
    exact ⟨(resetWindow_sum cfg s f hpos).2, (resetWindow_floor cfg s f hpos).1,
      (resetWindow_floor cfg s f hpos).2⟩

/-- C3 witness: the freshly constructed breaker is reachable with
counts 0 bounded by window 10; the rescale of a breached window with 6
successes and 5 failures yields 5 and 5, bracketing 60/11. -/
theorem window_rescale_invariant_witness :
    (initBreaker 0).successes + (initBreaker 0).failures ≤
      CBConfig.windowSize ⟨1/2, 60, 10⟩ ∧
    CBConfig.windowSize ⟨1/2, 60, 10⟩ < 6 + 5 ∧
    (resetWindow ⟨1/2, 60, 10⟩ 6 5).1 + (resetWindow ⟨1/2, 60, 10⟩ 6 5).2 = 10 ∧
    ((resetWindow ⟨1/2, 60, 10⟩ 6 5).1 : ℚ) ≤ ((60 : ℕ) : ℚ) / ((11 : ℕ) : ℚ) ∧
    ((60 : ℕ) : ℚ) / ((11 : ℕ) : ℚ) < (resetWindow ⟨1/2, 60, 10⟩ 6 5).1 + 1 := by
  have hmain := window_rescale_invariant ⟨1/2, 60, 10⟩
  have h1 := hmain.1 (initBreaker 0) (Reachable.init 0)
  have h2 := hmain.2 6 5 (by norm_num)
  exact ⟨h1, by norm_num, h2.1, h2.2.1, h2.2.2⟩

/-- Helper: the dot product of a vector with itself is nonnegative. -/
theorem dotR_self_nonneg (v : List ℝ) : 0 ≤ dotR v v := by
  unfold dotR
  induction v with
  | nil => simp
  | cons x xs ih =>
    simp only [List.zipWith_cons_cons, List.sum_cons]
    nlinarith [ih, sq_nonneg x]

/-- Helper: self similarity is exactly 1 for a vector of nonzero norm. -/
theorem computeSimilarity_self (v : List ℝ) (h : dotR v v ≠ 0) :
    computeSimilarity v v = 1 := by
  have hpos : 0 < dotR v v := lt_of_le_of_ne (dotR_self_nonneg v) (Ne.symm h)
  have hnorm : normR v ≠ 0 := by
    unfold normR
    positivity
  unfold computeSimilarity
  rw [if_neg (by push_neg; exact ⟨hnorm, hnorm⟩)]
  unfold normR
  rw [Real.mul_self_sqrt (le_of_lt hpos)]
  exact div_self h

/-- Helper: characterization of the best-similarity scan: either no
entry improves on the initial similarity of the accumulator and the
accumulator is returned, or the scan returns an entry attaining the
running maximum. -/
theorem scanFold_spec (q : List ℝ) (entries : List (Str × CacheEntry))
    (acc : ℝ × Option CacheEntry) :
    (entries.foldl (fun best p =>
        let s := computeSimilarity q p.2.embedding
        if best.1 < s then (s, some p.2) else best) acc = acc ∧
      ∀ p ∈ entries, computeSimilarity q p.2.embedding ≤ acc.1) ∨
    (∃ p ∈ entries,
      (entries.foldl (fun best p =>
        let s := computeSimilarity q p.2.embedding
        if best.1 < s then (s, some p.2) else best) acc).2 = some p.2 ∧
      (entries.foldl (fun best p =>
        let s := computeSimilarity q p.2.embedding
        if best.1 < s then (s, some p.2) else best) acc).1 =
        computeSimilarity q p.2.embedding ∧
      acc.1 < (entries.foldl (fun best p =>
        let s := computeSimilarity q p.2.embedding
        if best.1 < s then (s, some p.2) else best) acc).1 ∧
      ∀ r ∈ entries, computeSimilarity q r.2.embedding ≤
        (entries.foldl (fun best p =>
          let s := computeSimilarity q p.2.embedding
          if best.1 < s then (s, some p.2) else best) acc).1) := by
  induction entries generalizing acc with
  | nil => exact Or.inl ⟨rfl, by simp⟩
  | cons e rest ih =>
    simp only [List.foldl_cons]
    by_cases hcmp : acc.1 < computeSimilarity q e.2.embedding
    · rw [if_pos hcmp]
      rcases ih (computeSimilarity q e.2.embedding, some e.2) with ⟨hres, hall⟩ | h
      · right
        refine ⟨e, List.mem_cons_self e rest, ?_, ?_, ?_, ?_⟩
        · rw [hres]
        · rw [hres]
        · rw [hres]
          exact hcmp
        · intro r hr
          rcases List.mem_cons.mp hr with rfl | hr2
          · rw [hres]
          · rw [hres]
            exact hall r hr2
      · obtain ⟨p, hp, h2, h1, hlt, hall⟩ := h
        right
        refine ⟨p, List.mem_cons_of_mem e hp, h2, h1, lt_trans hcmp hlt, ?_⟩
        intro r hr
        rcases List.mem_cons.mp hr with rfl | hr2
        · exact le_of_lt hlt
        · exact hall r hr2
    · rw [if_neg hcmp]
      push_neg at hcmp
      rcases ih acc with ⟨hres, hall⟩ | h
      · left
        refine ⟨hres, ?_⟩
        intro r hr
        rcases List.mem_cons.mp hr with rfl | hr2
        · exact hcmp
        · exact hall r hr2
      · obtain ⟨p, hp, h2, h1, hlt, hall⟩ := h
        right
        refine ⟨p, List.mem_cons_of_mem e hp, h2, h1, hlt, ?_⟩
        intro r hr
        rcases List.mem_cons.mp hr with rfl | hr2
        · exact le_of_lt (lt_of_le_of_lt hcmp hlt)
        · exact hall r hr2

/-- Helper: the scan over the live entries either reports no strictly
positive similarity (best 0, no key) or returns an entry attaining the
maximum similarity, which is then strictly positive. -/
theorem scanBest_spec (q : List ℝ) (entries : List (Str × CacheEntry)) :
    ((scanBest q entries).2 = none ∧ (scanBest q entries).1 = 0 ∧
      ∀ p ∈ entries, computeSimilarity q p.2.embedding ≤ 0) ∨
    (∃ p ∈ entries, (scanBest q entries).2 = some p.2 ∧
      (scanBest q entries).1 = computeSimilarity q p.2.embedding ∧
      0 < (scanBest q entries).1 ∧
      ∀ r ∈ entries, computeSimilarity q r.2.embedding ≤ (scanBest q entries).1) := by
  have h := scanFold_spec q entries (0, none)
  rcases h with ⟨hres, hall⟩ | ⟨p, hp, h2, h1, hlt, hall⟩
  · left
    unfold scanBest
    rw [hres]
    exact ⟨rfl, rfl, hall⟩
  · right
    exact ⟨p, hp, h2, h1, hlt, hall⟩

/-- C4: over a nonempty set of live cache entries and a threshold in
the configured range (strictly positive), the lookup returns a hit if
and only if the maximum cosine similarity between the query embedding
and the stored embeddings reaches the threshold, inclusively; the hit
carries the answer, review count and original question of an entry
attaining the maximum, and the matched similarity is that maximum. -/
theorem cache_get_hit_iff_threshold (embed : Str → List ℝ) (t : ℝ)
    (entries : List (Str × CacheEntry)) (question : Str)
    (hne : entries ≠ []) (ht : 0 < t) :
    ((cacheGet embed t entries question).isSome ↔
      ∃ p ∈ entries, t ≤ computeSimilarity (embed question) p.2.embedding) ∧
    (∀ hit, cacheGet embed t entries question = some hit →
      ∃ p ∈ entries,
        hit.answer = p.2.answer ∧ hit.numReviewsUsed = p.2.numReviewsUsed ∧
        hit.originalQuestion = p.2.question ∧
        hit.cacheSimilarity = computeSimilarity (embed question) p.2.embedding ∧
        ∀ r ∈ entries, computeSimilarity (embed question) r.2.embedding ≤
          hit.cacheSimilarity) := by
  have hempty : entries.isEmpty = false := by
    cases entries with
    | nil => exact absurd rfl hne
    | cons a l => rfl
  rcases scanBest_spec (embed question) entries with ⟨h2, h1, hall⟩ |
    ⟨p, hp, h2, h1, hpos, hall⟩
  · have hg : cacheGet embed t entries question = none := by
      simp only [cacheGet, hempty, Bool.false_eq_true, if_false]
      rw [h2]
    constructor
    · rw [hg]
      simp only [Option.isSome_none, Bool.false_eq_true, false_iff]
      rintro ⟨r, hr, htr⟩
      exact absurd (lt_of_lt_of_le ht htr) (not_lt.mpr (hall r hr))
    · intro hit hhit
      rw [hg] at hhit
      exact absurd hhit (by simp)
  · have hgeval : cacheGet embed t entries question =
        if t ≤ (scanBest (embed question) entries).1 then
          some { answer := p.2.answer, numReviewsUsed := p.2.numReviewsUsed
                 cacheSimilarity := (scanBest (embed question) entries).1
                 originalQuestion := p.2.question }
        else none := by
      simp only [cacheGet, hempty, Bool.false_eq_true, if_false]
      rw [h2]
    by_cases hth : t ≤ (scanBest (embed question) entries).1
    · rw [hgeval, if_pos hth]
      constructor
      · simp only [Option.isSome_some, true_iff]
        exact ⟨p, hp, h1 ▸ hth⟩
      · intro hit hhit
        have heq := Option.some.inj hhit
        refine ⟨p, hp, ?_, ?_, ?_, ?_, ?_⟩ <;> rw [← heq]
        · exact h1
        · intro r hr
          exact hall r hr
    · rw [hgeval, if_neg hth]
      constructor
      · simp only [Option.isSome_none, Bool.false_eq_true, false_iff]
        rintro ⟨r, hr, htr⟩
        exact hth (le_trans htr (hall r hr))
      · intro hit hhit
        exact absurd hhit (by simp)

/-- C4 witness: a single live entry whose stored embedding equals the
query embedding gives a hit at the default threshold 0.95. -/
theorem cache_get_hit_iff_threshold_witness :
    ([(("k".toList : Str),
      ⟨"q0".toList, "a0".toList, [(1 : ℝ)], 5⟩)] : List (Str × CacheEntry)) ≠ [] ∧
    (0 : ℝ) < 95/100 ∧
    (cacheGet (fun _ => [(1 : ℝ)]) (95/100)
      [("k".toList, ⟨"q0".toList, "a0".toList, [(1 : ℝ)], 5⟩)] "Q".toList).isSome := by
  refine ⟨by simp, by norm_num, ?_⟩
  have h := (cache_get_hit_iff_threshold (fun _ => [(1 : ℝ)]) (95/100)
    [("k".toList, ⟨"q0".toList, "a0".toList, [(1 : ℝ)], 5⟩)] "Q".toList
    (by simp) (by norm_num)).1
  rw [h]
  refine ⟨_, List.mem_cons_self _ _, ?_⟩
  have hs : computeSimilarity [(1 : ℝ)] [(1 : ℝ)] = 1 :=
    computeSimilarity_self [(1 : ℝ)] (by simp [dotR])
  simp only [hs]
  norm_num

/-- C7: storing a question-answer pair in an empty cache and
immediately looking the same question up (deterministic embedding with
nonzero norm, threshold in (0, 1]) returns a hit with the stored
answer, the stored review count, and similarity exactly 1. -/
theorem cache_set_get_roundtrip (hash : Str → Str) (embed : Str → List ℝ)
    (q a : Str) (n : ℕ) (t : ℝ) (ht0 : 0 < t) (ht1 : t ≤ 1)
    (hemb : dotR (embed q) (embed q) ≠ 0) :
    cacheGet embed t (cacheSet hash embed [] q a n) q =
      some { answer := a, numReviewsUsed := n, cacheSimilarity := 1
             originalQuestion := q } := by
  have hsim := computeSimilarity_self (embed q) hemb
  have hset : cacheSet hash embed [] q a n =
      [(hash q, { question := q, answer := a, embedding := embed q
                  numReviewsUsed := n })] := by
    simp [cacheSet]
  rw [hset]
  simp only [cacheGet, List.isEmpty_cons, Bool.false_eq_true, if_false, scanBest,
    List.foldl_cons, List.foldl_nil, hsim]
  rw [if_pos (by norm_num : (0 : ℝ) < 1)]
  simp [ht1]

/-- C7 witness: the round trip at threshold 0.95 with the constant
embedding [1]. -/
theorem cache_set_get_roundtrip_witness :
    (0 : ℝ) < 95/100 ∧ (95/100 : ℝ) ≤ 1 ∧
    dotR ((fun _ : Str => [(1 : ℝ)]) "Q".toList)
      ((fun _ : Str => [(1 : ℝ)]) "Q".toList) ≠ 0 ∧
    cacheGet (fun _ => [(1 : ℝ)]) (95/100)
      (cacheSet (fun _ => "h".toList) (fun _ => [(1 : ℝ)]) [] "Q".toList "A".toList 3)
      "Q".toList =
      some { answer := "A".toList, numReviewsUsed := 3, cacheSimilarity := 1
             originalQuestion := "Q".toList } := by
  refine ⟨by norm_num, by norm_num, by simp [dotR], ?_⟩
  exact cache_set_get_roundtrip (fun _ => "h".toList) (fun _ => [(1 : ℝ)])
    "Q".toList "A".toList 3 (95/100) (by norm_num) (by norm_num) (by simp [dotR])

/-- Helper: lookup commutes with a key-preserving value map. -/
theorem find?_map_keyed (g : ℕ × ℚ → ℚ) (m : List (ℕ × ℚ)) (k : ℕ) :
    (m.map (fun p => (p.1, g p))).find? (fun p => p.1 == k) =
      (m.find? (fun p => p.1 == k)).map (fun p => (p.1, g p)) := by
  induction m with
  | nil => rfl
  | cons p rest ih =>
    rw [List.map_cons]
    by_cases h : (p.1 == k) = true
    · simp [List.find?_cons, h]
    · simp only [List.find?_cons, h, Bool.false_eq_true]
      simpa using ih

/-- Helper: filtering by a condition that holds on every entry with the
looked-up key does not change the lookup. -/
theorem find?_filter_key (sem : List (ℕ × ℚ)) (c : ℕ × ℚ → Bool) (i : ℕ)
    (hc : ∀ p : ℕ × ℚ, p.1 = i → c p = true) :
    (sem.filter c).find? (fun p => p.1 == i) = sem.find? (fun p => p.1 == i) := by
  induction sem with
  | nil => rfl
  | cons p rest ih =>
    by_cases hkey : (p.1 == i) = true
    · have hcp : c p = true := hc p (by simpa using hkey)
      rw [List.filter_cons_of_pos hcp]
      simp [List.find?_cons, hkey]
    · by_cases hcp : c p = true
      · rw [List.filter_cons_of_pos hcp]
        simp only [List.find?_cons, hkey, Bool.false_eq_true]
        simpa using ih
      · have hkey2 : (p.1 == i) = false := by simpa using hkey
        rw [List.filter_cons_of_neg hcp, ih]
        simp [List.find?_cons, hkey2]

/-- Helper: an absent dict key is one that no entry carries. -/
theorem alGet_eq_none_iff (m : List (ℕ × ℚ)) (k : ℕ) :
    alGet m k = none ↔ k ∉ m.map Prod.fst := by
  unfold alGet
  rw [Option.map_eq_none', List.find?_eq_none]
  constructor
  · intro h hk
    obtain ⟨p, hp, hpk⟩ := List.mem_map.mp hk
    have hne : ¬ p.1 = k := by simpa using h p hp
    exact hne hpk
  · intro h p hp
    simp only [beq_iff_eq]
    exact fun hpk => h (List.mem_map.mpr ⟨p, hp, hpk⟩)

/-- Helper: fused score of a key present in the keyword map. -/
theorem alGet_fuse_of_kw (kw sem : List (ℕ × ℚ)) (kwW semW : ℚ) (i : ℕ) (v : ℚ)
    (h : alGet kw i = some v) :
    alGet (fuseScores kw sem kwW semW) i =
      some (if 0 < (alGet sem i).getD 0 then kwW * v + semW * (alGet sem i).getD 0
        else kwW * v) := by
  obtain ⟨p0, hp0, hv⟩ := Option.map_eq_some'.mp h
  have hkey : p0.1 = i := by simpa using List.find?_some hp0
  have halGet : ∀ (m : List (ℕ × ℚ)) (k : ℕ),
      alGet m k = (m.find? (fun p => p.1 == k)).map (fun p => p.2) := fun _ _ => rfl
  rw [halGet (fuseScores kw sem kwW semW) i]
  simp only [fuseScores]
  rw [List.find?_append, find?_map_keyed, find?_map_keyed, hp0]
  simp only [Option.map_some', Option.or_some]
  rw [hkey, hv]

/-- Helper: fused score of a key absent from the keyword map. -/
theorem alGet_fuse_of_semOnly (kw sem : List (ℕ × ℚ)) (kwW semW : ℚ) (i : ℕ)
    (h : alGet kw i = none) :
    alGet (fuseScores kw sem kwW semW) i =
      (alGet sem i).map (fun v => semW * v) := by
  have hk : kw.find? (fun p => p.1 == i) = none := by
    rcases hx : kw.find? (fun p => p.1 == i) with _ | p0
    · exact hx
    · rw [alGet, hx] at h
      simp at h
  have hfilter := find?_filter_key sem (fun p => (alGet kw p.1).isNone) i
    (fun p hp => by simp [hp, h])
  have halGet : ∀ (m : List (ℕ × ℚ)) (k : ℕ),
      alGet m k = (m.find? (fun p => p.1 == k)).map (fun p => p.2) := fun _ _ => rfl
  rw [halGet (fuseScores kw sem kwW semW) i, halGet sem i]
  simp only [fuseScores]
  rw [List.find?_append, find?_map_keyed, find?_map_keyed, hk, hfilter]
  rcases hs : sem.find? (fun p => p.1 == i) with _ | q <;> simp [hs]

/-- Helper: the keys of the fused map are the keyword keys followed by
the semantic-only keys. -/
theorem fuse_keys (kw sem : List (ℕ × ℚ)) (kwW semW : ℚ) :
    (fuseScores kw sem kwW semW).map Prod.fst =
      kw.map Prod.fst ++
        ((sem.filter (fun p => (alGet kw p.1).isNone)).map Prod.fst) := by
  simp only [fuseScores, List.map_append, List.map_map]
  rfl

/-- Helper: the formatted ranking never exceeds the requested size. -/
theorem rankAndFormat_length (df : List (ℕ × ReviewRecord))
    (kw sem final : List (ℕ × ℚ)) (maxResults : ℕ) :
    (rankAndFormat df kw sem final maxResults).length ≤ maxResults :=
  le_trans (List.length_filterMap_le _ _) (List.length_take_le _ _)

/-- Helper: the formatted ranking is sorted descending by combined
score. -/
theorem rankAndFormat_sorted (df : List (ℕ × ReviewRecord))
    (kw sem final : List (ℕ × ℚ)) (maxResults : ℕ) :
    (rankAndFormat df kw sem final maxResults).Pairwise
      (fun a b => b.combinedScore ≤ a.combinedScore) := by
  unfold rankAndFormat
  rw [List.pairwise_filterMap]
  haveI : IsTotal (ℕ × ℚ) (fun p q => q.2 ≤ p.2) := ⟨fun a b => le_total b.2 a.2⟩
  haveI : IsTrans (ℕ × ℚ) (fun p q => q.2 ≤ p.2) :=
    ⟨fun _ _ _ hab hbc => le_trans hbc hab⟩
  have hsorted : (final.insertionSort (fun p q : ℕ × ℚ => q.2 ≤ p.2)).Pairwise
      (fun p q : ℕ × ℚ => q.2 ≤ p.2) := List.sorted_insertionSort _ _
  have htake := List.Pairwise.sublist (List.take_sublist maxResults _) hsorted
  refine htake.imp ?_
  intro p q hpq x hx y hy
  obtain ⟨dx, hdx, hgx⟩ := Option.map_eq_some'.mp hx
  obtain ⟨dy, hdy, hgy⟩ := Option.map_eq_some'.mp hy
  rw [← hgx, ← hgy]
  exact hpq

/-- Helper: every formatted row comes from a candidate row, carries its
fields with the text truncated to 500 characters, the two component
scores of its index, and a combined score present in the fused map. -/
theorem rankAndFormat_rows (df : List (ℕ × ReviewRecord))
    (kw sem final : List (ℕ × ℚ)) (maxResults : ℕ) :
    ∀ row ∈ rankAndFormat df kw sem final maxResults,
      ∃ d ∈ df, row.branch = d.2.branch ∧ row.rating = d.2.rating ∧
        row.yearMonth = d.2.yearMonth ∧
        row.reviewerLocation = d.2.reviewerLocation ∧
        row.reviewText = d.2.reviewText.take 500 ∧
        row.keywordScore = (alGet kw d.1).getD 0 ∧
        row.semanticScore = (alGet sem d.1).getD 0 ∧
        (d.1, row.combinedScore) ∈ final := by
  intro row hrow
  unfold rankAndFormat at hrow
  obtain ⟨p, hp, hf⟩ := List.mem_filterMap.mp hrow
  obtain ⟨d, hd, hgd⟩ := Option.map_eq_some'.mp hf
  have hdmem : d ∈ df := List.mem_of_find?_eq_some hd
  have hdkey : d.1 = p.1 := by simpa using List.find?_some hd
  have hptop : p ∈ final := by
    have h1 : p ∈ final.insertionSort (fun p q : ℕ × ℚ => q.2 ≤ p.2) :=
      List.mem_of_mem_take hp
    exact (List.perm_insertionSort _ final).subset h1
  refine ⟨d, hdmem, ?_, ?_, ?_, ?_, ?_, ?_, ?_, ?_⟩ <;> rw [← hgd]
  · rw [hdkey]
  · rw [hdkey]
  · show (d.1, p.2) ∈ final
    rw [hdkey]
    exact hptop

/-- C9 counterexample: with keyword map {0: 1/2}, semantic map
{0: -1/2} and the default weights 0.4 and 0.6, the fused score of index
0 is 0.4 * 1/2 = 1/5, not the claimed
0.4 * 1/2 + 0.6 * (-1/2) = -1/10: the code drops the semantic term when
the semantic score is not strictly positive. -/
theorem fusion_drops_nonpositive_semantic :
    fuseScores [(0, 1/2)] [(0, -1/2)] (2/5) (3/5) = [(0, 1/5)] ∧
    (2/5 : ℚ) * (1/2) + (3/5) * (-1/2) = -1/10 ∧ ((1/5 : ℚ)) ≠ -1/10 := by
  refine ⟨?_, by norm_num, by norm_num⟩
  have hget : alGet [(0, (-1 : ℚ)/2)] 0 = some (-1/2) := rfl
  have hkw : alGet [(0, (1 : ℚ)/2)] 0 = some (1/2) := rfl
  have hneg : ¬((0 : ℚ) < ((-1 : ℚ)/2)) := by norm_num
  simp only [fuseScores, List.map_cons, List.map_nil, hget, Option.getD_some,
    List.filter_cons, hkw, Option.isNone_some, Bool.false_eq_true, if_false,
    List.filter_nil, List.append_nil, if_neg hneg]
  norm_num

/-- C9 (amended): score fusion assigns every index of the keyword map
the combined score kw_weight*kw + semantic_weight*sem when its semantic
score is strictly positive and kw_weight*kw when the semantic score is
missing or nonpositive, and assigns every index only in the semantic
map the score semantic_weight*sem; the rows are sorted descending by
combined score, truncated to max_results, and each carries the record
fields plus keyword_score, semantic_score and combined_score. -/
theorem score_fusion_spec (kw sem : List (ℕ × ℚ)) (kwW semW : ℚ)
    (df : List (ℕ × ReviewRecord)) (maxResults : ℕ) :
    ((fuseScores kw sem kwW semW).map Prod.fst =
      kw.map Prod.fst ++
        (sem.filter (fun p => (alGet kw p.1).isNone)).map Prod.fst) ∧
    (∀ i v, alGet kw i = some v →
      alGet (fuseScores kw sem kwW semW) i =
        some (if 0 < (alGet sem i).getD 0 then
          kwW * v + semW * (alGet sem i).getD 0 else kwW * v)) ∧
    (∀ i, alGet kw i = none →
      alGet (fuseScores kw sem kwW semW) i =
        (alGet sem i).map (fun v => semW * v)) ∧
    (rankAndFormat df kw sem (fuseScores kw sem kwW semW) maxResults).length ≤
      maxResults ∧
    (rankAndFormat df kw sem (fuseScores kw sem kwW semW) maxResults).Pairwise
      (fun a b => b.combinedScore ≤ a.combinedScore) ∧
    (∀ row ∈ rankAndFormat df kw sem (fuseScores kw sem kwW semW) maxResults,
      ∃ d ∈ df, row.branch = d.2.branch ∧ row.rating = d.2.rating ∧
        row.yearMonth = d.2.yearMonth ∧
        row.reviewerLocation = d.2.reviewerLocation ∧
        row.reviewText = d.2.reviewText.take 500 ∧
        row.keywordScore = (alGet kw d.1).getD 0 ∧
        row.semanticScore = (alGet sem d.1).getD 0 ∧
        (d.1, row.combinedScore) ∈ fuseScores kw sem kwW semW) :=
  ⟨fuse_keys kw sem kwW semW,
   fun i v h => alGet_fuse_of_kw kw sem kwW semW i v h,
   fun i h => alGet_fuse_of_semOnly kw sem kwW semW i h,
   rankAndFormat_length df kw sem _ maxResults,
   rankAndFormat_sorted df kw sem _ maxResults,
   rankAndFormat_rows df kw sem _ maxResults⟩

/-- C9 witness: fusing {0: 1/2} with {1: 1/3} at the default weights
assigns index 0 its keyword-only score and index 1 its semantic-only
score. -/
theorem score_fusion_spec_witness :
    alGet [((0 : ℕ), (1 : ℚ)/2)] 0 = some (1/2) ∧
    alGet ([((0 : ℕ), (1 : ℚ)/2)]) 1 = none ∧
    alGet (fuseScores [(0, 1/2)] [(1, 1/3)] (2/5) (3/5)) 0 =
      some (if 0 < (alGet [((1 : ℕ), (1 : ℚ)/3)] 0).getD 0 then
        (2/5) * (1/2) + (3/5) * (alGet [((1 : ℕ), (1 : ℚ)/3)] 0).getD 0
        else (2/5) * (1/2)) ∧
    alGet (fuseScores [(0, 1/2)] [(1, 1/3)] (2/5) (3/5)) 1 =
      (alGet [((1 : ℕ), (1 : ℚ)/3)] 1).map (fun v => (3/5) * v) := by
  refine ⟨rfl, rfl, ?_, ?_⟩
  · exact (score_fusion_spec [(0, 1/2)] [(1, 1/3)] (2/5) (3/5) [] 0).2.1 0 (1/2) rfl
  · exact (score_fusion_spec [(0, 1/2)] [(1, 1/3)] (2/5) (3/5) [] 0).2.2.1 1 rfl

/-- Helper: an entry of an updated dict is an old entry or the new
assignment. -/
theorem alUpdate_mem (m : List (ℕ × ℚ)) (k : ℕ) (v : ℚ) :
    ∀ p ∈ alUpdate m k v, p ∈ m ∨ p = (k, v) := by
  intro p hp
  unfold alUpdate at hp
  split at hp
  · obtain ⟨q, hq, hqe⟩ := List.mem_map.mp hp
    by_cases h : (q.1 == k) = true
    · right
      rw [if_pos h] at hqe
      exact hqe.symm
    · left
      rw [if_neg h] at hqe
      exact hqe ▸ hq
  · rcases List.mem_append.mp hp with h | h
    · exact Or.inl h
    · right
      simpa using h

/-- Helper: the keys of a dict built by repeated assignment come from
the accumulator or from the assignment sequence. -/
theorem dictFold_keys (l : List (ℕ × ℚ)) (acc : List (ℕ × ℚ)) :
    ∀ p ∈ l.foldl (fun m q => alUpdate m q.1 q.2) acc,
      p ∈ acc ∨ p.1 ∈ l.map Prod.fst := by
  induction l generalizing acc with
  | nil => exact fun p hp => Or.inl hp
  | cons q rest ih =>
    intro p hp
    rw [List.foldl_cons] at hp
    rcases ih (alUpdate acc q.1 q.2) p hp with h | h
    · rcases alUpdate_mem acc q.1 q.2 p h with h2 | h2
      · exact Or.inl h2
      · right
        rw [h2]
        simp
    · right
      rw [List.map_cons]
      exact List.mem_cons_of_mem _ h

/-- Helper: every key of a built dict comes from the assignment
sequence. -/
theorem dictOfList_keys (l : List (ℕ × ℚ)) :
    ∀ p ∈ dictOfList l, p.1 ∈ l.map Prod.fst := by
  intro p hp
  rcases dictFold_keys l [] p hp with h | h
  · exact absurd h (List.not_mem_nil p)
  · exact h

/-- Helper: under the vector index contract (an id-restricted query
returns only ids in the restriction), every semantic result id is a
candidate id. -/
theorem semanticResults_keys (index : VIndex) (cands : List ℕ) (maxResults : ℕ)
    (hne : cands ≠ [])
    (hindex : ∀ ids n, ∀ p ∈ index (some ids) n, p.1 ∈ ids) :
    ∀ p ∈ semanticResults index cands maxResults, p.1 ∈ cands := by
  intro p hp
  unfold semanticResults at hp
  split at hp
  · unfold searchSimilar at hp
    have hempty : cands.isEmpty = false := by
      cases cands with
      | nil => exact absurd rfl hne
      | cons a l => rfl
    simp only [hempty, Bool.false_eq_true, if_false] at hp
    obtain ⟨q, hq, hqe⟩ := List.mem_map.mp hp
    rw [← hqe]
    exact hindex cands _ q hq
  · have := List.of_mem_filter hp
    simpa using this

/-- C10: when the candidate frame is nonempty and the external index
honors an id restriction, every key of the semantic score map is a key
of the keyword score map, the filter selecting purely semantic entries
is empty (the add-purely-semantic step adds nothing), and the fused
map is exactly the keyword map with each entry combined with its
optional semantic term: every combined score includes its keyword
term. -/
theorem semantic_keys_subset_keyword (index : VIndex)
    (df : List (ℕ × ReviewRecord)) (query : Str) (maxResults : ℕ)
    (kwW semW : ℚ) (hdf : df ≠ [])
    (hindex : ∀ ids n, ∀ p ∈ index (some ids) n, p.1 ∈ ids) :
    (∀ p ∈ semanticScores index (df.map (fun d => d.1)) maxResults,
      p.1 ∈ (calcKeywordScores df query).map Prod.fst) ∧
    ((semanticScores index (df.map (fun d => d.1)) maxResults).filter
      (fun p => (alGet (calcKeywordScores df query) p.1).isNone) = []) ∧
    fuseScores (calcKeywordScores df query)
        (semanticScores index (df.map (fun d => d.1)) maxResults) kwW semW =
      (calcKeywordScores df query).map (fun q =>
        (q.1,
          if 0 < (alGet (semanticScores index (df.map (fun d => d.1)) maxResults)
              q.1).getD 0 then
            kwW * q.2 + semW * (alGet (semanticScores index
              (df.map (fun d => d.1)) maxResults) q.1).getD 0
          else kwW * q.2)) := by
  have hkeys : (calcKeywordScores df query).map Prod.fst =
      df.map (fun d => d.1) := by
    unfold calcKeywordScores
    rw [List.map_map]
    rfl
  have hcand : df.map (fun d => d.1) ≠ [] := by
    intro hx
    exact hdf (List.map_eq_nil_iff.mp hx)
  have h1 : ∀ p ∈ semanticScores index (df.map (fun d => d.1)) maxResults,
      p.1 ∈ (calcKeywordScores df query).map Prod.fst := by
    intro p hp
    rw [hkeys]
    obtain hk := dictOfList_keys _ p hp
    obtain ⟨q, hq, hqe⟩ := List.mem_map.mp hk
    rw [← hqe]
    exact semanticResults_keys index _ maxResults hcand hindex q hq
  have hfil : (semanticScores index (df.map (fun d => d.1)) maxResults).filter
      (fun p => (alGet (calcKeywordScores df query) p.1).isNone) = [] := by
    rw [List.filter_eq_nil_iff]
    intro p hp hn
    have hmem := h1 p hp
    have hnone : alGet (calcKeywordScores df query) p.1 = none :=
      Option.isNone_iff_eq_none.mp hn
    exact (alGet_eq_none_iff _ _).mp hnone hmem
  refine ⟨h1, hfil, ?_⟩
  simp only [fuseScores, hfil, List.map_nil, List.append_nil]

/-- C10 witness: a one-row frame with an index returning a prefix of
the id restriction at distance 0. -/
theorem semantic_keys_subset_keyword_witness :
    ([((0 : ℕ), (⟨[], [], [], [], []⟩ : ReviewRecord))] ≠
      ([] : List (ℕ × ReviewRecord))) ∧
    ((semanticScores
        (fun ids n => match ids with
          | some l => (l.take n).map (fun j => (j, (0 : ℚ)))
          | none => [])
        ([((0 : ℕ), (⟨[], [], [], [], []⟩ : ReviewRecord))].map (fun d => d.1))
        1).filter
      (fun p => (alGet (calcKeywordScores
        [((0 : ℕ), (⟨[], [], [], [], []⟩ : ReviewRecord))] []) p.1).isNone) = []) := by
  refine ⟨by simp, ?_⟩
  refine (semantic_keys_subset_keyword
    (fun ids n => match ids with
      | some l => (l.take n).map (fun j => (j, (0 : ℚ)))
      | none => [])
    [((0 : ℕ), (⟨[], [], [], [], []⟩ : ReviewRecord))] [] 1 (2/5) (3/5)
    (by simp) ?_).2.1
  intro ids n p hp
  obtain ⟨j, hj, hje⟩ := List.mem_map.mp hp
  rw [← hje]
  exact List.take_subset n ids hj

end Disney
